import Mathlib

/-!
Verification of the caching core of `gin-clean-template`.

This file shallowly embeds the in-memory cache implementations of
`pkg/cache` (the LRU cache of `lru-cache.go` and the FIFO cache) and the
multi-level read-through coordinator (`GetWithMultiLevelCache`), and proves
or refutes the specification claims about them.

Embedding conventions:
* Go's `container/list` plus the `map[string]*list.Element` lookup are
  represented by a single association list `entries : List (String × CacheData)`
  kept in list order, front (eviction end) first.  The Go code maintains the
  invariant that the map and the list hold exactly the same keys, so one
  association list represents both faithfully.
* Go `time.Time` values are embedded as `Int` instants; `time.Now()` becomes an
  explicit `now : Int` argument to every operation, and Go's
  `time.Now().After(t)` is `t < now`.
* Go `any` values are a type parameter `Val`; a returned Go `nil` interface
  value is `Option.none`.
* Go's `close(c.stopChan)` panics when the channel is already closed, so the
  stop channel is embedded as a `stopClosed : Bool` flag and `Stop` returns
  `Except String`, with `.error` marking a runtime panic.
-/

/-- `CacheData` from `pkg/cache/cache.go`: a stored value together with its
expiry instant (`Timeout`). -/
structure CacheData (Val : Type) where
  Value : Val
  Timeout : Int
  deriving Repr, DecidableEq

/-- Shared state shape of `LRUCache` and `FIFOCache`: the association list
`entries` embeds the `container/list` list together with the
`map[string]*list.Element` index (front of the Go list = head of `entries`),
`maxSize` and `defaultTtl` are the corresponding struct fields, and
`stopClosed` records whether `stopChan` has been closed. -/
structure CacheState (Val : Type) where
  entries : List (String × CacheData Val)
  maxSize : Int
  defaultTtl : Int
  stopClosed : Bool
  deriving Repr, DecidableEq

/-- Embedding of the Go map read `c.cacheData[key]`: the data stored under
`key`, if present. -/
def lookupKey (key : String) : List (String × CacheData Val) → Option (CacheData Val)
  | [] => none
  | (k, d) :: t => if k = key then some d else lookupKey key t

/-- Embedding of `c.list.Remove(element); delete(c.cacheData, key)`: drop the
entry of `key` from the list. -/
def removeKey (key : String) : List (String × CacheData Val) → List (String × CacheData Val)
  | [] => []
  | (k, d) :: t => if k = key then t else (k, d) :: removeKey key t

/-- Embedding of the FIFO in-place update of an existing element's data
(no reordering). -/
def updateKey (key : String) (d' : CacheData Val) :
    List (String × CacheData Val) → List (String × CacheData Val)
  | [] => []
  | (k, d) :: t => if k = key then (k, d') :: t else (k, d) :: updateKey key d' t

namespace LRUCache

/-- `NewLRUCache(maxSize, defaultTtlSeconds)`: empty list and map, open stop
channel.  (The background cleanup goroutine is modelled separately as the
explicit sweep `cleanupExpiredKeys`.) -/
def new (maxSize defaultTtlSeconds : Int) : CacheState Val :=
  { entries := [], maxSize := maxSize, defaultTtl := defaultTtlSeconds,
    stopClosed := false }

/-- `LRUCache.SetWithTTL` from `lru-cache.go`:
if the key exists, update its data in place and `MoveToBack` (remove and
re-append); otherwise, when `c.list.Len() >= c.maxSize`, remove the front
element (if any) and push the new item to the back. -/
def setWithTTL (now : Int) (key : String) (value : Val) (ttlSeconds : Int)
    (c : CacheState Val) : CacheState Val :=
  match lookupKey key c.entries with
  | some _ =>
      { c with entries := removeKey key c.entries ++ [(key, ⟨value, now + ttlSeconds⟩)] }
  | none =>
      let evicted := if c.maxSize ≤ (c.entries.length : Int) then c.entries.tail else c.entries
      { c with entries := evicted ++ [(key, ⟨value, now + ttlSeconds⟩)] }

/-- `LRUCache.Set`: `SetWithTTL` with the store's default TTL. -/
def set (now : Int) (key : String) (value : Val) (c : CacheState Val) : CacheState Val :=
  setWithTTL now key value c.defaultTtl c

/-- `LRUCache.Get`: absent key returns `(nil, false)`; an expired entry is
removed and its stale value returned with `false`; a live hit moves the entry
to the back (most recently used) and returns `(value, true)`. -/
def get (now : Int) (key : String) (c : CacheState Val) :
    (Option Val × Bool) × CacheState Val :=
  match lookupKey key c.entries with
  | none => ((none, false), c)
  | some d =>
      if d.Timeout < now then
        ((some d.Value, false), { c with entries := removeKey key c.entries })
      else
        ((some d.Value, true),
         { c with entries := removeKey key c.entries ++ [(key, d)] })

/-- `LRUCache.Delete`: remove the key if present; no-op otherwise. -/
def delete (key : String) (c : CacheState Val) : CacheState Val :=
  { c with entries := removeKey key c.entries }

/-- `LRUCache.Clear`: `list.Init()` and a fresh map. -/
def clear (c : CacheState Val) : CacheState Val :=
  { c with entries := [] }

/-- `LRUCache.Size`: `c.list.Len()` — the number of list elements, expired or
not. -/
def size (c : CacheState Val) : Nat :=
  c.entries.length

/-- `LRUCache.GetAll`: all non-expired key/value pairs (expired entries are
skipped). -/
def getAll (now : Int) (c : CacheState Val) : List (String × Val) :=
  c.entries.filterMap fun p => if p.2.Timeout < now then none else some (p.1, p.2.Value)

/-- `LRUCache.Keys`: keys in LRU order (front first), skipping expired
entries. -/
def keys (now : Int) (c : CacheState Val) : List String :=
  c.entries.filterMap fun p => if p.2.Timeout < now then none else some p.1

/-- `LRUCache.cleanupExpiredKeys`, one sweep of the 3-second ticker: remove
every entry whose `Timeout` has passed. -/
def cleanupExpiredKeys (now : Int) (c : CacheState Val) : CacheState Val :=
  { c with entries := c.entries.filter fun p => ¬ p.2.Timeout < now }

/-- `LRUCache.Stop`: `close(c.stopChan)`.  In Go, closing an already-closed
channel panics with "close of closed channel"; `.error` marks that panic. -/
def stop (c : CacheState Val) : Except String (CacheState Val) :=
  if c.stopClosed then .error "close of closed channel"
  else .ok { c with stopClosed := true }

end LRUCache

namespace FIFOCache

/-- `NewFIFOCache(maxSize, defaultTtlSeconds)`. -/
def new (maxSize defaultTtlSeconds : Int) : CacheState Val :=
  { entries := [], maxSize := maxSize, defaultTtl := defaultTtlSeconds,
    stopClosed := false }

/-- `FIFOCache.SetWithTTL`: an existing key is updated in place (its position
in the FIFO order is unchanged); otherwise eviction and insertion proceed as
in the LRU store. -/
def setWithTTL (now : Int) (key : String) (value : Val) (ttlSeconds : Int)
    (c : CacheState Val) : CacheState Val :=
  match lookupKey key c.entries with
  | some _ =>
      { c with entries := updateKey key ⟨value, now + ttlSeconds⟩ c.entries }
  | none =>
      let evicted := if c.maxSize ≤ (c.entries.length : Int) then c.entries.tail else c.entries
      { c with entries := evicted ++ [(key, ⟨value, now + ttlSeconds⟩)] }

/-- `FIFOCache.Set`. -/
def set (now : Int) (key : String) (value : Val) (c : CacheState Val) : CacheState Val :=
  setWithTTL now key value c.defaultTtl c

/-- `FIFOCache.Get`: no reordering on a hit.  On a discovered-expired entry
the source runs `go c.Delete(key)`; the deferred deletion is embedded as
having taken effect in the returned state. -/
def get (now : Int) (key : String) (c : CacheState Val) :
    (Option Val × Bool) × CacheState Val :=
  match lookupKey key c.entries with
  | none => ((none, false), c)
  | some d =>
      if d.Timeout < now then
        ((some d.Value, false), { c with entries := removeKey key c.entries })
      else
        ((some d.Value, true), c)

/-- `FIFOCache.Delete`. -/
def delete (key : String) (c : CacheState Val) : CacheState Val :=
  { c with entries := removeKey key c.entries }

/-- `FIFOCache.Clear`. -/
def clear (c : CacheState Val) : CacheState Val :=
  { c with entries := [] }

/-- `FIFOCache.Size`: `c.list.Len()`. -/
def size (c : CacheState Val) : Nat :=
  c.entries.length

/-- `FIFOCache.GetAll`. -/
def getAll (now : Int) (c : CacheState Val) : List (String × Val) :=
  c.entries.filterMap fun p => if p.2.Timeout < now then none else some (p.1, p.2.Value)

/-- `FIFOCache.Keys`: keys in FIFO order (oldest first), skipping expired
entries. -/
def keys (now : Int) (c : CacheState Val) : List String :=
  c.entries.filterMap fun p => if p.2.Timeout < now then none else some p.1

/-- `FIFOCache.cleanupExpiredKeys`, one sweep. -/
def cleanupExpiredKeys (now : Int) (c : CacheState Val) : CacheState Val :=
  { c with entries := c.entries.filter fun p => ¬ p.2.Timeout < now }

/-- `FIFOCache.Stop`: `close(c.stopChan)`, panicking on a second call. -/
def stop (c : CacheState Val) : Except String (CacheState Val) :=
  if c.stopClosed then .error "close of closed channel"
  else .ok { c with stopClosed := true }

end FIFOCache

/-- The store operations a client can issue, each carrying the instant at
which it runs (`Stop` is treated separately, see `LRUCache.stop`). -/
inductive CacheOp (Val : Type) where
  | set (now : Int) (key : String) (value : Val)
  | setWithTTL (now : Int) (key : String) (value : Val) (ttlSeconds : Int)
  | get (now : Int) (key : String)
  | delete (key : String)
  | clear
  | sweep (now : Int)

/-- Apply one operation to an LRU store (the result of a `Get` is discarded,
only its state effect is kept). -/
def applyLRU (op : CacheOp Val) (c : CacheState Val) : CacheState Val :=
  match op with
  | .set now key v => LRUCache.set now key v c
  | .setWithTTL now key v ttl => LRUCache.setWithTTL now key v ttl c
  | .get now key => (LRUCache.get now key c).2
  | .delete key => LRUCache.delete key c
  | .clear => LRUCache.clear c
  | .sweep now => LRUCache.cleanupExpiredKeys now c

/-- Apply one operation to a FIFO store. -/
def applyFIFO (op : CacheOp Val) (c : CacheState Val) : CacheState Val :=
  match op with
  | .set now key v => FIFOCache.set now key v c
  | .setWithTTL now key v ttl => FIFOCache.setWithTTL now key v ttl c
  | .get now key => (FIFOCache.get now key c).2
  | .delete key => FIFOCache.delete key c
  | .clear => FIFOCache.clear c
  | .sweep now => FIFOCache.cleanupExpiredKeys now c

/-- Run a sequence of operations on an LRU store. -/
def runLRU (ops : List (CacheOp Val)) (c : CacheState Val) : CacheState Val :=
  ops.foldl (fun s op => applyLRU op s) c

/-- Run a sequence of operations on a FIFO store. -/
def runFIFO (ops : List (CacheOp Val)) (c : CacheState Val) : CacheState Val :=
  ops.foldl (fun s op => applyFIFO op s) c

/-- The slice of the `Cache` interface of `pkg/cache/cache.go` consumed by
`GetWithMultiLevelCache`: `Get` and `SetWithTTL` over some store state `S`
(both `LRUCache` and `FIFOCache` implement it). -/
structure MemCacheOps (S Val : Type) where
  get : Int → String → S → (Option Val × Bool) × S
  setWithTTL : Int → String → Val → Int → S → S

/-- `MemCacheOps` instance of the LRU store. -/
def lruOps : MemCacheOps (CacheState Val) Val :=
  { get := LRUCache.get, setWithTTL := LRUCache.setWithTTL }

/-- `MemCacheOps` instance of the FIFO store. -/
def fifoOps : MemCacheOps (CacheState Val) Val :=
  { get := FIFOCache.get, setWithTTL := FIFOCache.setWithTTL }

/-- Result of one sequential execution of `GetWithMultiLevelCache`: the value
returned to the caller (Go `any`, so an `Option`; `.error` is the propagated
fetch error), the final tier-1 store state, and the list of writes issued to
tier 2 (Redis) as key/payload pairs. -/
structure MLResult (S Val Err : Type) where
  result : Except Err (Option Val)
  mem : S
  redisWrites : List (String × String)
  deriving Repr

/-- `GetWithMultiLevelCache` from `pkg/cache` (sequential embedding of one
execution; the sharing of that one execution among concurrent callers by
`sfGroup.Do` is modelled separately by `sfStep`/`sfRun`):

1. try the memory cache; on a hit return the value;
2. inside the singleflight function, re-check the memory cache;
3. try Redis: `redisResp` is the outcome of `redisClient.Get` (`none` for any
   error, including timeout and `redis.Nil`); a non-empty payload that
   unmarshals is written to the memory cache with `memTTL` and returned;
4. otherwise call the origin fetch (`fetchOutcome` is its result for this
   key); on error return the error and write nothing; on success write the
   value to the memory cache with `memTTL` and, when `syncToRedis` is set,
   also marshal it to Redis. -/
def getWithMultiLevelCache (ops : MemCacheOps S Val) (now : Int) (key : String)
    (redisResp : Option String) (decode : String → Option Val)
    (encode : Val → String) (fetchOutcome : Except Err Val)
    (memTTL : Int) (syncToRedis : Bool) (mem : S) : MLResult S Val Err :=
  match ops.get now key mem with
  | ((v1, true), mem1) => { result := .ok v1, mem := mem1, redisWrites := [] }
  | ((_, false), mem1) =>
    match ops.get now key mem1 with
    | ((v2, true), mem2) => { result := .ok v2, mem := mem2, redisWrites := [] }
    | ((_, false), mem2) =>
      let fromOrigin : MLResult S Val Err :=
        match fetchOutcome with
        | .error e => { result := .error e, mem := mem2, redisWrites := [] }
        | .ok r =>
            { result := .ok (some r),
              mem := ops.setWithTTL now key r memTTL mem2,
              redisWrites := if syncToRedis then [(key, encode r)] else [] }
      match redisResp with
      | some s =>
          if s ≠ "" then
            match decode s with
            | some r =>
                { result := .ok (some r),
                  mem := ops.setWithTTL now key r memTTL mem2,
                  redisWrites := [] }
            | none => fromOrigin
          else fromOrigin
      | none => fromOrigin

/-! ### Interleaving model of the coalesced miss path

`GetWithMultiLevelCache` routes every tier-1 miss through `sfGroup.Do(key, fn)`
where `sfGroup` is the single package-level variable
`var sfGroup singleflight.Group` — one group for the whole process, keyed by
the cache key alone, no matter which memory store or Redis client the caller
passes in.

The singleflight library itself is an external dependency, so its entry
lifecycle is modelled from the spec: an entry is created when the first caller
for a key begins the miss path, concurrent callers arriving while it exists
join it as waiters and receive the shared result, and the entry is destroyed
as soon as the computation completes — no entry outlives a single fetch.

The model fixes one cache key and tracks, for `K` callers:
* `mem c` — whether store instance `c` currently holds the key (fetch results
  and tier-1 hits for the focus key; tier 2 is taken as missing throughout,
  matching the claims' "key absent" hypothesis);
* `flight` — the global group's entry for the key: `none` when no call is in
  flight, otherwise the list of joined waiters;
* `pcs i` — caller `i`'s program counter;
* `counter` — how many times the origin fetch has executed.

Each caller `i` uses store instance `coordOf i`, and the `fn` closure it would
pass to `Do` reads and writes that store.  The body of `fn` (re-check the
memory cache, then fetch) runs as one atomic action: singleflight never runs
two executions for the same key concurrently, and `fn` publishes its effects
(memory-cache write, entry removal, result delivery) only at completion, so
splitting it adds no observable interleavings for the focus key. -/

/-- Equality of fetch results is decidable (needed to evaluate concrete
schedules of the model). -/
instance : DecidableEq (Except Nat Nat) := fun a b =>
  match a, b with
  | .ok x, .ok y =>
      if h : x = y then .isTrue (by rw [h]) else .isFalse (by simp [h])
  | .ok _, .error _ => .isFalse (by simp)
  | .error _, .ok _ => .isFalse (by simp)
  | .error x, .error y =>
      if h : x = y then .isTrue (by rw [h]) else .isFalse (by simp [h])

/-- Program counter of one caller of the multi-level `Get`. -/
inductive SFPc where
  | start
  | entering
  | waiting
  | leading
  | doneWith (r : Except Nat Nat)
  deriving Repr, DecidableEq

/-- Whether a caller has completed. -/
def SFPc.isDone : SFPc → Bool
  | .doneWith _ => true
  | _ => false

/-- Global state of the interleaving model (one fixed cache key). -/
structure SFState (K : Nat) where
  mem : Nat → Option Nat
  flight : Option (List (Fin K))
  pcs : Fin K → SFPc
  counter : Nat

/-- Scheduler actions: each is one atomic step of one caller. -/
inductive SFAct (K : Nat) where
  | checkMem (i : Fin K)
  | enterDo (i : Fin K)
  | runFn (i : Fin K)

/-- Deliver the shared result `r` of a completed singleflight execution to its
leader `i` and every joined waiter. -/
def deliver (i : Fin K) (ws : List (Fin K)) (r : Except Nat Nat)
    (pcs : Fin K → SFPc) : Fin K → SFPc :=
  fun j => if j = i ∨ j ∈ ws then .doneWith r else pcs j

/-- One step of the model.  `coordOf i` is the store instance caller `i` was
given; `fetchOutcome` is what the origin returns for this key.  An action
whose caller is not at the right program point is a no-op (the scheduler only
ever takes enabled steps; padding with no-ops adds no behaviours). -/
def sfStep (coordOf : Fin K → Nat) (fetchOutcome : Except Nat Nat) :
    SFAct K → SFState K → SFState K
  | .checkMem i, s =>
    if s.pcs i = .start then
      match s.mem (coordOf i) with
      | some v => { s with pcs := fun j => if j = i then .doneWith (.ok v) else s.pcs j }
      | none => { s with pcs := fun j => if j = i then .entering else s.pcs j }
    else s
  | .enterDo i, s =>
    if s.pcs i = .entering then
      match s.flight with
      | none =>
        { s with
          flight := some []
          pcs := fun j => if j = i then .leading else s.pcs j }
      | some ws =>
        { s with
          flight := some (i :: ws)
          pcs := fun j => if j = i then .waiting else s.pcs j }
    else s
  | .runFn i, s =>
    if s.pcs i = .leading then
      match s.flight with
      | some ws =>
        match s.mem (coordOf i) with
        | some v => { s with flight := none, pcs := deliver i ws (.ok v) s.pcs }
        | none =>
          match fetchOutcome with
          | .ok v =>
              { s with
                mem := fun c => if c = coordOf i then some v else s.mem c
                flight := none
                counter := s.counter + 1
                pcs := deliver i ws (.ok v) s.pcs }
          | .error e =>
              { s with
                flight := none
                counter := s.counter + 1
                pcs := deliver i ws (.error e) s.pcs }
      | none => s
    else s

/-- Run a schedule (a list of actions chosen by the scheduler). -/
def sfRun (coordOf : Fin K → Nat) (fetchOutcome : Except Nat Nat)
    (acts : List (SFAct K)) (s : SFState K) : SFState K :=
  acts.foldl (fun s a => sfStep coordOf fetchOutcome a s) s

/-- Initial state: the key is absent from every store, no call is in flight,
every caller is about to start, the fetch has never run. -/
def sfInit (K : Nat) : SFState K :=
  { mem := fun _ => none, flight := none, pcs := fun _ => .start, counter := 0 }


/-- The C2/C3 test trace on an LRU store: capacity 2, default TTL 60 s,
everything at instant 0 — `Set(a,1); Set(b,2); Get(a); Set(c,3)`. -/
def lruTrace : CacheState Nat :=
  LRUCache.set 0 "c" 3
    (LRUCache.get 0 "a" (LRUCache.set 0 "b" 2
      (LRUCache.set 0 "a" 1 (LRUCache.new 2 60)))).2

/-- The same operation sequence on a FIFO store of capacity 2. -/
def fifoTrace : CacheState Nat :=
  FIFOCache.set 0 "c" 3
    (FIFOCache.get 0 "a" (FIFOCache.set 0 "b" 2
      (FIFOCache.set 0 "a" 1 (FIFOCache.new 2 60)))).2

/-- An LRU store holding one entry `k ↦ 7` written at instant 0 with a 3-second
TTL, so the entry is expired (but not yet reaped) at instant 10. -/
def staleLRU : CacheState Nat :=
  LRUCache.setWithTTL 0 "k" 7 3 (LRUCache.new 2 60)

/-- The same stale-entry state built through the FIFO store. -/
def staleFIFO : CacheState Nat :=
  FIFOCache.setWithTTL 0 "k" 7 3 (FIFOCache.new 2 60)

/-- A schedule of two concurrently launched callers whose executions happen to
serialize: caller 0 runs its whole call before caller 1 enters the
singleflight region. -/
def serialSchedule : List (SFAct 2) :=
  [.checkMem 0, .enterDo 0, .runFn 0, .checkMem 1, .enterDo 1, .runFn 1]

/-- A schedule where caller 1 joins the flight opened by caller 0 before that
flight's function runs. -/
def overlapSchedule : List (SFAct 2) :=
  [.checkMem 0, .enterDo 0, .checkMem 1, .enterDo 1, .runFn 0]

/-- Invariant of every reachable state when all callers use store `0` and the
origin fetch deterministically succeeds with `v`: before the key lands in the
store nothing has completed and the fetch has not run; once it is there, the
fetch has run exactly once; and every completed caller got `.ok v`. -/
def c5Inv (K : Nat) (v : Nat) (s : SFState K) : Prop :=
  (s.mem 0 = none → s.counter = 0 ∧ ∀ (i : Fin K) (r : Except Nat Nat), s.pcs i ≠ .doneWith r) ∧
  (∀ w, s.mem 0 = some w → w = v ∧ s.counter = 1) ∧
  (∀ (i : Fin K) (r : Except Nat Nat), s.pcs i = .doneWith r → r = .ok v)

/-! ### Helper lemmas about the association-list embedding -/

theorem lookupKey_none_removeKey {key : String} {l : List (String × CacheData Val)}
    (h : lookupKey key l = none) : removeKey key l = l := by
  induction l with
  | nil => rfl
  | cons p t ih =>
    obtain ⟨k, d⟩ := p
    by_cases hk : k = key
    · simp [lookupKey, hk] at h
    · simp [lookupKey, hk] at h
      simp [removeKey, hk, ih h]

theorem length_removeKey_le (key : String) (l : List (String × CacheData Val)) :
    (removeKey key l).length ≤ l.length := by
  induction l with
  | nil => simp [removeKey]
  | cons p t ih =>
    obtain ⟨k, d⟩ := p
    by_cases hk : k = key <;> simp [removeKey, hk] <;> omega

theorem length_removeKey_of_lookup {key : String} {l : List (String × CacheData Val)}
    {d : CacheData Val} (h : lookupKey key l = some d) :
    (removeKey key l).length + 1 = l.length := by
  induction l with
  | nil => simp [lookupKey] at h
  | cons p t ih =>
    obtain ⟨k, d'⟩ := p
    by_cases hk : k = key
    · simp [removeKey, hk]
    · simp [lookupKey, hk] at h
      simp [removeKey, hk, ih h]

theorem length_updateKey (key : String) (d' : CacheData Val)
    (l : List (String × CacheData Val)) :
    (updateKey key d' l).length = l.length := by
  induction l with
  | nil => rfl
  | cons p t ih =>
    obtain ⟨k, d⟩ := p
    by_cases hk : k = key <;> simp [updateKey, hk, ih]

theorem lookupKey_append_of_none {key : String} {l : List (String × CacheData Val)}
    (m : List (String × CacheData Val)) (h : lookupKey key l = none) :
    lookupKey key (l ++ m) = lookupKey key m := by
  induction l with
  | nil => rfl
  | cons p t ih =>
    obtain ⟨k, d⟩ := p
    by_cases hk : k = key
    · simp [lookupKey, hk] at h
    · simp [lookupKey, hk] at h ⊢
      exact ih h

theorem lookupKey_none_tail {key : String} {l : List (String × CacheData Val)}
    (h : lookupKey key l = none) : lookupKey key l.tail = none := by
  cases l with
  | nil => rfl
  | cons p t =>
    obtain ⟨k, d⟩ := p
    by_cases hk : k = key <;> simp [lookupKey, hk] at h ⊢ <;> try exact h

/-! ### Capacity-bound lemmas -/

theorem length_setWithTTL_le_lru (now : Int) (key : String) (value : Val) (ttl : Int)
    (c : CacheState Val) (hpos : 0 < c.maxSize)
    (h : (c.entries.length : Int) ≤ c.maxSize) :
    ((LRUCache.setWithTTL now key value ttl c).entries.length : Int) ≤ c.maxSize := by
  unfold LRUCache.setWithTTL
  cases hl : lookupKey key c.entries with
  | some d =>
    have hlen := length_removeKey_of_lookup hl
    simp only [List.length_append, List.length_singleton]
    push_cast
    omega
  | none =>
    by_cases hfull : c.maxSize ≤ (c.entries.length : Int)
    · have htail : c.entries.tail.length = c.entries.length - 1 := c.entries.length_tail
      simp only [hfull, if_pos, List.length_append, List.length_singleton]
      push_cast
      omega
    · simp only [hfull, if_neg, not_false_iff, List.length_append, List.length_singleton]
      push_cast
      omega

theorem length_setWithTTL_le_fifo (now : Int) (key : String) (value : Val) (ttl : Int)
    (c : CacheState Val) (hpos : 0 < c.maxSize)
    (h : (c.entries.length : Int) ≤ c.maxSize) :
    ((FIFOCache.setWithTTL now key value ttl c).entries.length : Int) ≤ c.maxSize := by
  unfold FIFOCache.setWithTTL
  cases hl : lookupKey key c.entries with
  | some d =>
    simp only [length_updateKey]
    exact h
  | none =>
    by_cases hfull : c.maxSize ≤ (c.entries.length : Int)
    · have htail : c.entries.tail.length = c.entries.length - 1 := c.entries.length_tail
      simp only [hfull, if_pos, List.length_append, List.length_singleton]
      push_cast
      omega
    · simp only [hfull, if_neg, not_false_iff, List.length_append, List.length_singleton]
      push_cast
      omega

theorem length_get_le_lru (now : Int) (key : String) (c : CacheState Val) :
    ((LRUCache.get now key c).2).entries.length ≤ c.entries.length := by
  unfold LRUCache.get
  cases hl : lookupKey key c.entries with
  | none => simp
  | some d =>
    have hlen := length_removeKey_of_lookup hl
    by_cases hexp : d.Timeout < now <;> simp [hexp] <;> omega

theorem length_get_le_fifo (now : Int) (key : String) (c : CacheState Val) :
    ((FIFOCache.get now key c).2).entries.length ≤ c.entries.length := by
  unfold FIFOCache.get
  cases hl : lookupKey key c.entries with
  | none => simp
  | some d =>
    by_cases hexp : d.Timeout < now <;> simp [hexp]
    exact length_removeKey_le key c.entries

theorem maxSize_applyLRU (op : CacheOp Val) (c : CacheState Val) :
    (applyLRU op c).maxSize = c.maxSize := by
  cases op <;>
    simp only [applyLRU, LRUCache.set, LRUCache.setWithTTL, LRUCache.get, LRUCache.delete,
      LRUCache.clear, LRUCache.cleanupExpiredKeys] <;>
    repeat' first | rfl | split

theorem maxSize_applyFIFO (op : CacheOp Val) (c : CacheState Val) :
    (applyFIFO op c).maxSize = c.maxSize := by
  cases op <;>
    simp only [applyFIFO, FIFOCache.set, FIFOCache.setWithTTL, FIFOCache.get, FIFOCache.delete,
      FIFOCache.clear, FIFOCache.cleanupExpiredKeys] <;>
    repeat' first | rfl | split

theorem length_applyLRU_le (op : CacheOp Val) (c : CacheState Val)
    (hpos : 0 < c.maxSize) (h : (c.entries.length : Int) ≤ c.maxSize) :
    ((applyLRU op c).entries.length : Int) ≤ c.maxSize := by
  cases op with
  | set now key v => exact length_setWithTTL_le_lru now key v c.defaultTtl c hpos h
  | setWithTTL now key v ttl => exact length_setWithTTL_le_lru now key v ttl c hpos h
  | get now key =>
    have := @length_get_le_lru Val now key c
    calc ((applyLRU (.get now key) c).entries.length : Int)
        ≤ (c.entries.length : Int) := by exact_mod_cast this
      _ ≤ c.maxSize := h
  | delete key =>
    have := @length_removeKey_le Val key c.entries
    calc ((applyLRU (.delete key) c).entries.length : Int)
        ≤ (c.entries.length : Int) := by exact_mod_cast this
      _ ≤ c.maxSize := h
  | clear => simpa [applyLRU, LRUCache.clear] using le_of_lt hpos
  | sweep now =>
    have : (applyLRU (CacheOp.sweep now : CacheOp Val) c).entries.length ≤ c.entries.length := by
      simpa [applyLRU, LRUCache.cleanupExpiredKeys] using
        List.length_filter_le _ c.entries
    calc ((applyLRU (.sweep now) c).entries.length : Int)
        ≤ (c.entries.length : Int) := by exact_mod_cast this
      _ ≤ c.maxSize := h

theorem length_applyFIFO_le (op : CacheOp Val) (c : CacheState Val)
    (hpos : 0 < c.maxSize) (h : (c.entries.length : Int) ≤ c.maxSize) :
    ((applyFIFO op c).entries.length : Int) ≤ c.maxSize := by
  cases op with
  | set now key v => exact length_setWithTTL_le_fifo now key v c.defaultTtl c hpos h
  | setWithTTL now key v ttl => exact length_setWithTTL_le_fifo now key v ttl c hpos h
  | get now key =>
    have := @length_get_le_fifo Val now key c
    calc ((applyFIFO (.get now key) c).entries.length : Int)
        ≤ (c.entries.length : Int) := by exact_mod_cast this
      _ ≤ c.maxSize := h
  | delete key =>
    have := @length_removeKey_le Val key c.entries
    calc ((applyFIFO (.delete key) c).entries.length : Int)
        ≤ (c.entries.length : Int) := by exact_mod_cast this
      _ ≤ c.maxSize := h
  | clear => simpa [applyFIFO, FIFOCache.clear] using le_of_lt hpos
  | sweep now =>
    have : (applyFIFO (CacheOp.sweep now : CacheOp Val) c).entries.length ≤ c.entries.length := by
      simpa [applyFIFO, FIFOCache.cleanupExpiredKeys] using
        List.length_filter_le _ c.entries
    calc ((applyFIFO (.sweep now) c).entries.length : Int)
        ≤ (c.entries.length : Int) := by exact_mod_cast this
      _ ≤ c.maxSize := h

theorem runLRU_cons (op : CacheOp Val) (ops : List (CacheOp Val)) (c : CacheState Val) :
    runLRU (op :: ops) c = runLRU ops (applyLRU op c) := rfl

theorem runFIFO_cons (op : CacheOp Val) (ops : List (CacheOp Val)) (c : CacheState Val) :
    runFIFO (op :: ops) c = runFIFO ops (applyFIFO op c) := rfl

theorem length_runLRU_le (ops : List (CacheOp Val)) (c : CacheState Val)
    (hpos : 0 < c.maxSize) (h : (c.entries.length : Int) ≤ c.maxSize) :
    ((runLRU ops c).entries.length : Int) ≤ c.maxSize := by
  induction ops generalizing c with
  | nil => exact h
  | cons op ops ih =>
    rw [runLRU_cons]
    have hmax := maxSize_applyLRU op c
    have := ih (applyLRU op c) (by rw [hmax]; exact hpos)
      (by rw [hmax]; exact length_applyLRU_le op c hpos h)
    rwa [hmax] at this

theorem length_runFIFO_le (ops : List (CacheOp Val)) (c : CacheState Val)
    (hpos : 0 < c.maxSize) (h : (c.entries.length : Int) ≤ c.maxSize) :
    ((runFIFO ops c).entries.length : Int) ≤ c.maxSize := by
  induction ops generalizing c with
  | nil => exact h
  | cons op ops ih =>
    rw [runFIFO_cons]
    have hmax := maxSize_applyFIFO op c
    have := ih (applyFIFO op c) (by rw [hmax]; exact hpos)
      (by rw [hmax]; exact length_applyFIFO_le op c hpos h)
    rwa [hmax] at this

/-! ### Invariant analysis of the coalesced miss path (single store) -/

theorem sfRun_cons (coordOf : Fin K → Nat) (fo : Except Nat Nat) (a : SFAct K)
    (acts : List (SFAct K)) (s : SFState K) :
    sfRun coordOf fo (a :: acts) s = sfRun coordOf fo acts (sfStep coordOf fo a s) := rfl

theorem c5Inv_init (K v : Nat) : c5Inv K v (sfInit K) := by
  refine ⟨fun _ => ⟨rfl, fun i r h => ?_⟩, fun w hw => by simp [sfInit] at hw,
    fun i r h => by simp [sfInit] at h⟩
  simp [sfInit] at h

theorem c5Inv_step (K v : Nat) (a : SFAct K) (s : SFState K) (h : c5Inv K v s) :
    c5Inv K v (sfStep (fun _ => 0) (.ok v) a s) := by
  obtain ⟨h1, h2, h3⟩ := h
  cases a with
  | checkMem i =>
    simp only [sfStep]
    split
    case isFalse _ => exact ⟨h1, h2, h3⟩
    case isTrue hpc =>
      cases hm : s.mem 0 with
      | some w =>
        refine ⟨fun hnone => by simp [hm] at hnone, fun w' hw' => h2 w' hw', ?_⟩
        intro j r hj
        by_cases hji : j = i
        · subst hji
          simp at hj
          obtain ⟨hw, hr⟩ := h2 w hm
          exact hw ▸ hj.symm
        · simp [hji] at hj
          exact h3 j r hj
      | none =>
        refine ⟨fun _ => ⟨(h1 hm).1, ?_⟩, fun w' hw' => by simp [hm] at hw', ?_⟩
        · intro j r hj
          by_cases hji : j = i
          · subst hji; simp at hj
          · simp [hji] at hj
            exact (h1 hm).2 j r hj
        · intro j r hj
          by_cases hji : j = i
          · subst hji; simp at hj
          · simp [hji] at hj
            exact h3 j r hj
  | enterDo i =>
    simp only [sfStep]
    split
    case isFalse _ => exact ⟨h1, h2, h3⟩
    case isTrue hpc =>
      cases s.flight with
      | none =>
        refine ⟨fun hm => ⟨(h1 hm).1, ?_⟩, h2, ?_⟩
        · intro j r hj
          by_cases hji : j = i
          · subst hji; simp at hj
          · simp [hji] at hj
            exact (h1 hm).2 j r hj
        · intro j r hj
          by_cases hji : j = i
          · subst hji; simp at hj
          · simp [hji] at hj
            exact h3 j r hj
      | some ws =>
        refine ⟨fun hm => ⟨(h1 hm).1, ?_⟩, h2, ?_⟩
        · intro j r hj
          by_cases hji : j = i
          · subst hji; simp at hj
          · simp [hji] at hj
            exact (h1 hm).2 j r hj
        · intro j r hj
          by_cases hji : j = i
          · subst hji; simp at hj
          · simp [hji] at hj
            exact h3 j r hj
  | runFn i =>
    simp only [sfStep]
    split
    case isFalse _ => exact ⟨h1, h2, h3⟩
    case isTrue hpc =>
      cases s.flight with
      | none => exact ⟨h1, h2, h3⟩
      | some ws =>
        cases hm : s.mem 0 with
        | some w =>
          obtain ⟨hw, hc⟩ := h2 w hm
          subst hw
          refine ⟨fun hnone => by simp [hm] at hnone, fun w' hw' => h2 w' hw', ?_⟩
          intro j r hj
          simp only [deliver] at hj
          by_cases hji : j = i ∨ j ∈ ws
          · simp [hji] at hj
            exact hj.symm
          · simp [hji] at hj
            exact h3 j r hj
        | none =>
          refine ⟨fun hnone => by simp at hnone, fun w' hw' => ?_, ?_⟩
          · simp at hw'
            exact ⟨hw'.symm, by simp [(h1 hm).1]⟩
          · intro j r hj
            simp only [deliver] at hj
            by_cases hji : j = i ∨ j ∈ ws
            · simp [hji] at hj
              exact hj.symm
            · simp [hji] at hj
              exact h3 j r hj

theorem c5Inv_run (K v : Nat) (acts : List (SFAct K)) (s : SFState K) (h : c5Inv K v s) :
    c5Inv K v (sfRun (fun _ => 0) (.ok v) acts s) := by
  induction acts generalizing s with
  | nil => exact h
  | cons a acts ih => exact ih _ (c5Inv_step K v a s h)

/-! ### Lemmas about lookup after insertion -/

theorem lookupKey_setWithTTL_lru {key : String} {c : CacheState Val}
    (now ttl : Int) (v : Val) (h : lookupKey key c.entries = none) :
    lookupKey key (LRUCache.setWithTTL now key v ttl c).entries = some ⟨v, now + ttl⟩ := by
  unfold LRUCache.setWithTTL
  simp only [h]
  have h1 : lookupKey key
      (if c.maxSize ≤ (c.entries.length : Int) then c.entries.tail else c.entries) = none := by
    split
    · exact lookupKey_none_tail h
    · exact h
  rw [lookupKey_append_of_none _ h1]
  simp [lookupKey]

theorem lookupKey_setWithTTL_fifo {key : String} {c : CacheState Val}
    (now ttl : Int) (v : Val) (h : lookupKey key c.entries = none) :
    lookupKey key (FIFOCache.setWithTTL now key v ttl c).entries = some ⟨v, now + ttl⟩ := by
  unfold FIFOCache.setWithTTL
  simp only [h]
  have h1 : lookupKey key
      (if c.maxSize ≤ (c.entries.length : Int) then c.entries.tail else c.entries) = none := by
    split
    · exact lookupKey_none_tail h
    · exact h
  rw [lookupKey_append_of_none _ h1]
  simp [lookupKey]

/-! ### The claims -/

/-- C1: for every store (LRU or FIFO) of capacity `N > 0`, after any sequence
of `Set`/`SetWithTTL`/`Get`/`Delete`/`Clear` operations (and reaper sweeps)
starting from the fresh store, `Size() ≤ N`; and inserting a new key into a
store already holding `N = maxSize` entries removes exactly one victim — the
front of the order — before appending the new entry. -/
theorem c1_capacity_bound (N ttlSeconds : Int) (hN : 0 < N) (ops : List (CacheOp Nat)) :
    ((LRUCache.size (runLRU ops (LRUCache.new N ttlSeconds)) : Int) ≤ N ∧
     (FIFOCache.size (runFIFO ops (FIFOCache.new N ttlSeconds)) : Int) ≤ N) ∧
    (∀ (c : CacheState Nat) (now : Int) (key : String) (v : Nat) (ttl : Int),
      lookupKey key c.entries = none →
      (c.entries.length : Int) = c.maxSize →
      (LRUCache.setWithTTL now key v ttl c).entries
        = c.entries.tail ++ [(key, ⟨v, now + ttl⟩)] ∧
      (FIFOCache.setWithTTL now key v ttl c).entries
        = c.entries.tail ++ [(key, ⟨v, now + ttl⟩)]) := by
  constructor
  · constructor
    · have := length_runLRU_le ops (LRUCache.new N ttlSeconds : CacheState Nat)
        (by simpa [LRUCache.new] using hN)
        (by simp only [LRUCache.new, List.length_nil, Int.natCast_zero]; exact le_of_lt hN)
      simpa [LRUCache.new, LRUCache.size] using this
    · have := length_runFIFO_le ops (FIFOCache.new N ttlSeconds : CacheState Nat)
        (by simpa [FIFOCache.new] using hN)
        (by simp only [FIFOCache.new, List.length_nil, Int.natCast_zero]; exact le_of_lt hN)
      simpa [FIFOCache.new, FIFOCache.size] using this
  · intro c now key v ttl hnone hfull
    constructor
    · unfold LRUCache.setWithTTL
      simp only [hnone]
      rw [if_pos (le_of_eq hfull.symm)]
    · unfold FIFOCache.setWithTTL
      simp only [hnone]
      rw [if_pos (le_of_eq hfull.symm)]

/-- Witness for C1 at a concrete input: capacity 2, three inserts. -/
theorem c1_capacity_bound_witness :
    (0 : Int) < 2 ∧
    ((LRUCache.size (runLRU [CacheOp.set 0 "a" 1, CacheOp.set 0 "b" 2, CacheOp.set 0 "c" 3]
        (LRUCache.new 2 60)) : Int) ≤ 2 ∧
     (FIFOCache.size (runFIFO [CacheOp.set 0 "a" 1, CacheOp.set 0 "b" 2, CacheOp.set 0 "c" 3]
        (FIFOCache.new 2 60)) : Int) ≤ 2) :=
  ⟨by decide,
   (c1_capacity_bound 2 60 (by decide)
      [CacheOp.set 0 "a" 1, CacheOp.set 0 "b" 2, CacheOp.set 0 "c" 3]).1⟩

/-- C2: on an LRU store of capacity 2, `Set(a,1); Set(b,2); Get(a); Set(c,3)`
leaves exactly the keys `a` and `c`: the intervening read is a hit that
promotes `a`, so `b` is the least-recently-used victim when `c` arrives. -/
theorem c2_lru_eviction_order :
    lruTrace.entries.map Prod.fst = ["a", "c"] ∧
    LRUCache.keys 0 lruTrace = ["a", "c"] ∧
    (LRUCache.get 0 "a" (LRUCache.set 0 "b" 2 (LRUCache.set 0 "a" 1
      (LRUCache.new 2 60)))).1 = (some 1, true) := by
  refine ⟨by decide, by decide, by decide⟩

/-- C3: the same sequence on a FIFO store of capacity 2 leaves exactly the
keys `b` and `c`: the read of `a` is a hit but does not change the insertion
order, so `a` — the oldest entry — is evicted when `c` arrives. -/
theorem c3_fifo_eviction_order :
    fifoTrace.entries.map Prod.fst = ["b", "c"] ∧
    FIFOCache.keys 0 fifoTrace = ["b", "c"] ∧
    (FIFOCache.get 0 "a" (FIFOCache.set 0 "b" 2 (FIFOCache.set 0 "a" 1
      (FIFOCache.new 2 60)))).1 = (some 1, true) := by
  refine ⟨by decide, by decide, by decide⟩

/-- C4: in both stores, an entry whose expiry has passed (`Timeout < now`) is
treated as absent by `Get`: `found = false` is returned (no error — `Get`
total-functionally returns a pair, never a failure) and the entry is lazily
removed (`entries` loses exactly that key); and an entry set at instant `t0`
with TTL `ttl` is retrievable at any instant up to `t0 + ttl` and not
retrievable at any later instant. -/
theorem c4_expiry_is_absence (c : CacheState Nat) (key : String) (now : Int)
    (d : CacheData Nat) (hd : lookupKey key c.entries = some d)
    (hexp : d.Timeout < now) :
    ((LRUCache.get now key c).1 = (some d.Value, false) ∧
     ((LRUCache.get now key c).2).entries = removeKey key c.entries) ∧
    ((FIFOCache.get now key c).1 = (some d.Value, false) ∧
     ((FIFOCache.get now key c).2).entries = removeKey key c.entries) ∧
    (∀ (c' : CacheState Nat) (t0 ttl : Int) (v : Nat) (t : Int),
      lookupKey key c'.entries = none →
      ((t ≤ t0 + ttl →
          (LRUCache.get t key (LRUCache.setWithTTL t0 key v ttl c')).1 = (some v, true) ∧
          (FIFOCache.get t key (FIFOCache.setWithTTL t0 key v ttl c')).1 = (some v, true)) ∧
       (t0 + ttl < t →
          (LRUCache.get t key (LRUCache.setWithTTL t0 key v ttl c')).1 = (some v, false) ∧
          (FIFOCache.get t key (FIFOCache.setWithTTL t0 key v ttl c')).1 = (some v, false)))) := by
  refine ⟨?_, ?_, ?_⟩
  · unfold LRUCache.get
    simp [hd, hexp]
  · unfold FIFOCache.get
    simp [hd, hexp]
  · intro c' t0 ttl v t h0
    have hl := lookupKey_setWithTTL_lru t0 ttl v h0
    have hf := lookupKey_setWithTTL_fifo t0 ttl v h0
    constructor
    · intro ht
      have hlive : ¬ ((t0 + ttl) < t) := not_lt.mpr ht
      constructor
      · unfold LRUCache.get
        simp [hl, hlive]
      · unfold FIFOCache.get
        simp [hf, hlive]
    · intro ht
      constructor
      · unfold LRUCache.get
        simp [hl, ht]
      · unfold FIFOCache.get
        simp [hf, ht]

/-- Witness for C4: the stale entry `k ↦ 7` (TTL 3 s, written at 0) read at
instant 10 yields `found = false`, and read at instant 2 yields a hit. -/
theorem c4_expiry_is_absence_witness :
    (LRUCache.get 10 "k" staleLRU).1 = (some 7, false) ∧
    (FIFOCache.get 10 "k" staleLRU).1 = (some 7, false) ∧
    (LRUCache.get 2 "k" (LRUCache.setWithTTL 0 "k" 7 3 (LRUCache.new 2 60))).1
      = (some 7, true) ∧
    (LRUCache.get 4 "k" (LRUCache.setWithTTL 0 "k" 7 3 (LRUCache.new 2 60))).1
      = (some 7, false) := by
  have h := c4_expiry_is_absence staleLRU "k" 10 ⟨7, 3⟩ (by decide) (by decide)
  have hb := h.2.2 (LRUCache.new 2 60) 0 3 7
  exact ⟨h.1.1, h.2.1.1, ((hb 2 (by decide)).1 (by decide)).1, ((hb 4 (by decide)).2 (by decide)).1⟩

/-- C9: when `Get` finds an entry that exists but has expired, the first
return component is the stale stored value (not Go `nil`, i.e. not `none`)
even though `found = false`; only a key with no entry at all yields
`(none, false)`.  Holds for both stores. -/
theorem c9_stale_value_returned (c : CacheState Nat) (key : String) (now : Int)
    (d : CacheData Nat) (hd : lookupKey key c.entries = some d)
    (hexp : d.Timeout < now) :
    (LRUCache.get now key c).1 = (some d.Value, false) ∧
    (FIFOCache.get now key c).1 = (some d.Value, false) ∧
    (∀ c' : CacheState Nat, lookupKey key c'.entries = none →
      (LRUCache.get now key c').1 = (none, false) ∧
      (FIFOCache.get now key c').1 = (none, false)) := by
  refine ⟨?_, ?_, fun c' h0 => ⟨?_, ?_⟩⟩
  · unfold LRUCache.get
    simp [hd, hexp]
  · unfold FIFOCache.get
    simp [hd, hexp]
  · unfold LRUCache.get
    simp [h0]
  · unfold FIFOCache.get
    simp [h0]

/-- Witness for C9: the stale FIFO-store entry read at instant 10 returns the
stored value 7 with `found = false`; the absent key misses with `none`. -/
theorem c9_stale_value_returned_witness :
    (LRUCache.get 10 "k" staleFIFO).1 = (some 7, false) ∧
    (FIFOCache.get 10 "k" staleFIFO).1 = (some 7, false) ∧
    (LRUCache.get 10 "k" (LRUCache.new 2 60 : CacheState Nat)).1 = (none, false) := by
  have h := c9_stale_value_returned staleFIFO "k" 10 ⟨7, 3⟩ (by decide) (by decide)
  exact ⟨h.1, h.2.1, (h.2.2 (LRUCache.new 2 60) (by decide)).1⟩

/-- C10: `Size()` is the length of the internal list — it counts every entry
currently held, including expired ones not yet removed — so it can strictly
exceed the number of keys visible through `Get`/`GetAll`/`Keys`: the stale
stores hold one expired entry, report `Size() = 1`, yet `GetAll` is empty and
`Get` misses. -/
theorem c10_size_counts_expired :
    (∀ c : CacheState Nat, LRUCache.size c = c.entries.length) ∧
    (∀ c : CacheState Nat, FIFOCache.size c = c.entries.length) ∧
    (LRUCache.size staleLRU = 1 ∧ LRUCache.getAll 10 staleLRU = [] ∧
     LRUCache.keys 10 staleLRU = [] ∧ (LRUCache.get 10 "k" staleLRU).1.2 = false ∧
     (LRUCache.getAll 10 staleLRU).length < LRUCache.size staleLRU) ∧
    (FIFOCache.size staleFIFO = 1 ∧ FIFOCache.getAll 10 staleFIFO = [] ∧
     FIFOCache.keys 10 staleFIFO = [] ∧ (FIFOCache.get 10 "k" staleFIFO).1.2 = false ∧
     (FIFOCache.getAll 10 staleFIFO).length < FIFOCache.size staleFIFO) :=
  ⟨fun _ => rfl, fun _ => rfl, by decide, by decide⟩

/-- C7 (refuted — the code has a bug here): `Stop` is `close(c.stopChan)` with
no guard, so the second of two `Stop` calls closes an already-closed channel,
which panics in Go ("close of closed channel"), contradicting both the claim
and the method's own comment that calling it multiple times is safe.  The
first call alone succeeds. -/
theorem c7_stop_twice_panics :
    (LRUCache.stop (LRUCache.new 2 60 : CacheState Nat)).bind LRUCache.stop
      = .error "close of closed channel" ∧
    (FIFOCache.stop (FIFOCache.new 2 60 : CacheState Nat)).bind FIFOCache.stop
      = .error "close of closed channel" ∧
    (∃ c₁, LRUCache.stop (LRUCache.new 2 60 : CacheState Nat) = .ok c₁) ∧
    (∃ c₁, FIFOCache.stop (FIFOCache.new 2 60 : CacheState Nat) = .ok c₁) :=
  ⟨rfl, rfl, ⟨_, rfl⟩, ⟨_, rfl⟩⟩

/-- C5 (amended): when the origin fetch succeeds, launching any number `K ≥ 1`
of concurrently scheduled multi-level `Get` calls for one key absent from
tier 1 executes the fetch exactly once under EVERY interleaving, and all `K`
callers complete with that one execution's value — either delivered through
the shared singleflight entry, or read from tier 1 after the single execution
populated it. -/
theorem c5_coalescing_success_exactly_once (K : Nat) (hK : 0 < K) (v : Nat)
    (acts : List (SFAct K))
    (hdone : ∀ i : Fin K,
      ((sfRun (fun _ => 0) (.ok v) acts (sfInit K)).pcs i).isDone = true) :
    (sfRun (fun _ => 0) (.ok v) acts (sfInit K)).counter = 1 ∧
    ∀ i : Fin K, (sfRun (fun _ => 0) (.ok v) acts (sfInit K)).pcs i
      = .doneWith (.ok v) := by
  obtain ⟨h1, h2, h3⟩ := c5Inv_run K v acts (sfInit K) (c5Inv_init K v)
  have hdone' : ∀ i : Fin K,
      ∃ r, (sfRun (fun _ => 0) (.ok v) acts (sfInit K)).pcs i = .doneWith r := by
    intro i
    have hi := hdone i
    cases hp : (sfRun (fun _ => 0) (.ok v) acts (sfInit K)).pcs i with
    | doneWith r => exact ⟨r, rfl⟩
    | start => rw [hp] at hi; simp [SFPc.isDone] at hi
    | entering => rw [hp] at hi; simp [SFPc.isDone] at hi
    | waiting => rw [hp] at hi; simp [SFPc.isDone] at hi
    | leading => rw [hp] at hi; simp [SFPc.isDone] at hi
  obtain ⟨r0, hr0⟩ := hdone' ⟨0, hK⟩
  cases hm : (sfRun (fun _ => 0) (.ok v) acts (sfInit K)).mem 0 with
  | none => exact absurd hr0 ((h1 hm).2 _ _)
  | some w =>
    refine ⟨(h2 w hm).2, fun i => ?_⟩
    obtain ⟨r, hr⟩ := hdone' i
    rw [hr, h3 i r hr]

/-- Witness for C5 (amended): one caller, the straight-line schedule, a
successful fetch of 5: the caller completes and the fetch counter is 1. -/
theorem c5_coalescing_success_witness :
    (∀ i : Fin 1, ((sfRun (fun _ => 0) (.ok 5)
        [.checkMem 0, .enterDo 0, .runFn 0] (sfInit 1)).pcs i).isDone = true) ∧
    (sfRun (fun _ => 0) (.ok 5)
        [.checkMem 0, .enterDo 0, .runFn 0] (sfInit 1)).counter = 1 :=
  ⟨by decide,
   (c5_coalescing_success_exactly_once 1 (by decide) 5
      [.checkMem 0, .enterDo 0, .runFn 0] (by decide)).1⟩

/-- C5 as stated is refuted: with an erroring origin fetch, two concurrently
launched `Get` calls for the same absent key can execute the fetch twice.
In `serialSchedule` caller 0's whole call finishes (fetch fails, nothing is
cached — no negative caching, and the singleflight entry is discarded on
completion) before caller 1 enters the coalescing region, so caller 1 starts
a second flight and the fetch runs again: both callers complete, yet
`counter = 2`, contradicting "the origin fetch executes exactly once, and
all K callers receive the result of that single execution". -/
theorem c5_counterexample_error_twice :
    (∀ i : Fin 2, ((sfRun (fun _ => 0) (.error 7) serialSchedule
        (sfInit 2)).pcs i).isDone = true) ∧
    (sfRun (fun _ => 0) (.error 7) serialSchedule (sfInit 2)).counter = 2 := by
  refine ⟨by decide, by decide⟩

/-- C6: when tier 1 misses (key absent), tier 2 misses (the Redis read
returns an error — timeout, transport failure or `redis.Nil`), and the origin
fetch fails with `e`, the multi-level `Get` returns exactly `.error e` and no
value, the tier-1 store is returned unchanged, and no write is issued to
tier 2 — no negative caching.  Holds with either store as tier 1; the single
failed execution's result is what the coalescer hands to every joined waiter
(`deliver` sends one shared result to all of them). -/
theorem c6_fetch_error_populates_nothing (now : Int) (key : String)
    (mem : CacheState Nat) (hmiss : lookupKey key mem.entries = none)
    (decode : String → Option Nat) (encode : Nat → String)
    (e : Nat) (memTTL : Int) (syncToRedis : Bool) :
    getWithMultiLevelCache lruOps now key none decode encode (.error e)
        memTTL syncToRedis mem
      = { result := .error e, mem := mem, redisWrites := [] } ∧
    getWithMultiLevelCache fifoOps now key none decode encode (.error e)
        memTTL syncToRedis mem
      = { result := .error e, mem := mem, redisWrites := [] } := by
  constructor
  · simp [getWithMultiLevelCache, lruOps, LRUCache.get, hmiss]
  · simp [getWithMultiLevelCache, fifoOps, FIFOCache.get, hmiss]

/-- Witness for C6: an empty LRU store, a decoder that always fails, fetch
error 3 — the call returns error 3 and neither tier is written. -/
theorem c6_fetch_error_populates_nothing_witness :
    getWithMultiLevelCache (lruOps : MemCacheOps (CacheState Nat) Nat) 0 "k" none (fun _ => none)
        (fun _ => "") (Except.error 3) 60 true (LRUCache.new 2 60)
      = { result := .error 3, mem := LRUCache.new 2 60, redisWrites := [] } :=
  (c6_fetch_error_populates_nothing 0 "k" (LRUCache.new 2 60) rfl
    (fun _ => none) (fun _ => "") 3 60 true).1

/-- C8 (amended): the coalescing state is the single package-level
`var sfGroup singleflight.Group`, keyed by the cache key alone — so whichever
store instances the two callers of `overlapSchedule` are bound to
(`coordOf` is universally quantified here), caller 1 joins the flight caller 0
opened for the key, both receive the one fetched value, and the fetch runs
exactly once.  Coalescing is process-wide, not per coordinator. -/
theorem c8_coalescing_is_global (coordOf : Fin 2 → Nat) (v : Nat) :
    (sfRun coordOf (.ok v) overlapSchedule (sfInit 2)).pcs 0
        = .doneWith (.ok v) ∧
    (sfRun coordOf (.ok v) overlapSchedule (sfInit 2)).pcs 1
        = .doneWith (.ok v) ∧
    (sfRun coordOf (.ok v) overlapSchedule (sfInit 2)).counter = 1 :=
  ⟨rfl, rfl, rfl⟩

/-- C8 as stated is refuted: caller 0 uses store 0 and caller 1 uses the
distinct store 1 (two distinct coordinators), yet the in-flight fetch started
through coordinator 0 IS coalesced with caller 1's `Get`: caller 1 completes
with the value fetched through coordinator 0, only one fetch runs, and
caller 1's own store is never populated — its result came entirely from the
shared global group entry. -/
theorem c8_counterexample_cross_coordinator :
    (sfRun (fun i => i.val) (.ok 42) overlapSchedule (sfInit 2)).pcs 0
        = .doneWith (.ok 42) ∧
    (sfRun (fun i => i.val) (.ok 42) overlapSchedule (sfInit 2)).pcs 1
        = .doneWith (.ok 42) ∧
    (sfRun (fun i => i.val) (.ok 42) overlapSchedule (sfInit 2)).counter = 1 ∧
    (sfRun (fun i => i.val) (.ok 42) overlapSchedule (sfInit 2)).mem 1 = none ∧
    ((0 : Fin 2).val ≠ (1 : Fin 2).val) := by
  refine ⟨by decide, by decide, by decide, by decide, by decide⟩
